import Mathlib

/-!
Verification of `downloader.go`.

A shallow embedding of the concurrent range downloader of `downloader.go`, followed by
theorems about the ranges it plans, the names of its part files, the `Range` header it
sends, the merge step and the choice between the two download strategies.

Modelling conventions:

* Go `string`s are Lean `String`s.  The only character the program inspects is `'.'`
  (one byte, never part of a multi-byte UTF-8 sequence), so splitting by characters and
  splitting by bytes agree.
* Go `int` is modelled by `Int` without wrap-around.  The largest value the planning loop
  uses is `(concurrency - 1) * (contentLen / concurrency + 1)`; for it to pass `2^63`
  the program would need more than `2^31` goroutines.
* `%d` of `fmt.Sprintf` is `toString` on `Int`.
* The file system is a finite map from literal paths to nodes.  Paths are compared
  literally (no normalisation of `.`, `..` or repeated slashes, no links), and the only
  failures modelled are those decided by the tree itself: a missing path, a directory
  where a file is wanted, a missing parent directory.  Permissions and quotas are not
  modelled.
* The network is an oracle: it answers the probe and each `GET`; `none` stands for an
  error returned by `http.NewRequest` or by the client.
* Every goroutine of `multiDownload` writes only its own part file, and these files are
  pairwise distinct, so the goroutines are run in index order.  `log.Fatal` ends the
  process at once (deferred calls are skipped).
-/

/-! ## Bytes and the file system -/

/-- One byte of file or network content. -/
abbrev Byte := Fin 256

/-- A byte sequence. -/
abbrev Bytes := List Byte

/-- A node of the file system tree: a regular file with its content, or a directory. -/
inductive Node where
  | file (content : Bytes)
  | dir
  deriving DecidableEq, Repr

/-- The file system: an association list from paths to nodes; the first entry for a path
is the live one. -/
abbrev FS := List (String × Node)

/-- The node at `name`, if any. -/
def fsLookup : FS → String → Option Node
  | [], _ => none
  | (q, n) :: rest, name => if q = name then some n else fsLookup rest name

/-- Drop every entry for `name`. -/
def fsErase (fs : FS) (name : String) : FS := fs.filter (fun e => decide (e.1 ≠ name))

/-- Bind `name` to `n`. -/
def fsSet (fs : FS) (name : String) (n : Node) : FS := (name, n) :: fsErase fs name

/-- Whether the path `name` lies strictly below the directory `dir`. -/
def isUnder (dir name : String) : Bool := (dir ++ "/").data.isPrefixOf name.data

/-- Whether a new entry can be made at `name`: its last component is not empty and its
parent directory (the text before the last slash) exists; a path without a slash lives
in the working directory and a path whose only slash is the first lives in the root. -/
def creatable (fs : FS) (name : String) : Bool :=
  let r := name.data.reverse
  if r.takeWhile (fun c => c != '/') = [] then false
  else
    match r.dropWhile (fun c => c != '/') with
    | [] => true
    | _ :: revDir =>
      if revDir = [] then true
      else decide (fsLookup fs (String.mk revDir.reverse) = some Node.dir)

/-- Model of `os.Mkdir(name, 0777)` with the error discarded, as the program does: the
directory is made when nothing is at `name` and the parent exists; otherwise nothing
changes. -/
def osMkdir (fs : FS) (name : String) : FS :=
  match fsLookup fs name with
  | some _ => fs
  | none => if creatable fs name then fsSet fs name Node.dir else fs

/-- Model of `os.RemoveAll(name)`: removes `name` and everything below it; the empty path
is left alone. -/
def osRemoveAll (fs : FS) (name : String) : FS :=
  if name = "" then fs
  else fs.filter (fun e => !(decide (e.1 = name) || isUnder name e.1))

/-- Model of `os.Remove(name)`: removes a file, or a directory with nothing below it. -/
def osRemove (fs : FS) (name : String) : FS :=
  match fsLookup fs name with
  | none => fs
  | some (Node.file _) => fsErase fs name
  | some Node.dir =>
    if (fsErase fs name).all (fun e => !(isUnder name e.1)) then fsErase fs name else fs

/-- Model of `os.OpenFile(name, os.O_CREATE|os.O_WRONLY, 0666)`: `none` is the error; on
success the file exists afterwards, created empty when it was missing and left as it was
(not truncated) when it was there. -/
def osOpenFile (fs : FS) (name : String) : Option FS :=
  match fsLookup fs name with
  | some (Node.file _) => some fs
  | some Node.dir => none
  | none => if creatable fs name then some (fsSet fs name (Node.file [])) else none

/-- Model of `os.Open(name)` followed by reading to the end: `none` when the open fails;
a directory opens but yields no bytes. -/
def osOpen (fs : FS) (name : String) : Option Bytes :=
  match fsLookup fs name with
  | none => none
  | some (Node.file c) => some c
  | some Node.dir => some []

/-- Content of a file after `data` is written at offset `off`: nothing changes when there
is nothing to write; otherwise the bytes before `off` stay (zero filled if the file was
shorter), `data` follows, and the bytes beyond it stay. -/
def pwrite (old : Bytes) (off : Nat) (data : Bytes) : Bytes :=
  if data = [] then old
  else old.take off ++ List.replicate (off - old.length) 0 ++ data
    ++ old.drop (off + data.length)

/-- Write `data` at offset `off` of the open file `name`. -/
def fileWrite (fs : FS) (name : String) (off : Nat) (data : Bytes) : FS :=
  match fsLookup fs name with
  | some (Node.file c) => fsSet fs name (Node.file (pwrite c off data))
  | _ => fs

/-! ## The network -/

/-- The part of the `HEAD` response that `Download` reads. -/
structure ProbeResponse where
  statusCode : Int
  acceptRanges : String
  contentLength : Int
  deriving DecidableEq, Repr

/-- The request built by `downloadPartial`. -/
structure Request where
  method : String
  url : String
  range : String
  deriving DecidableEq, Repr

/-- The answer to a `GET`: the bytes of the body that arrive, and whether reading the body
ends with an error instead of a clean end of stream. -/
structure Response where
  body : Bytes
  readError : Bool
  deriving DecidableEq, Repr

/-- The network oracle. -/
structure Net where
  head : String → Option ProbeResponse
  get : Request → Option Response

/-! ## The program -/

/-- The Go `error` values the program can return. -/
inductive GoError where
  | probe
  | openDest (name : String)
  | openPart (name : String)
  deriving DecidableEq, Repr

/-- How a call ends. -/
inductive Outcome where
  | returned (err : Option GoError) (fs : FS)
  | exited (fs : FS)
  | panicked (fs : FS)
  deriving DecidableEq, Repr

/-- How `downloadPartial` ends: it returns, or `log.Fatal` ends the process. -/
inductive Step where
  | ok (fs : FS)
  | fatal (fs : FS)
  deriving DecidableEq, Repr

/-- The arguments of one `downloadPartial` call made by `multiDownload`. -/
structure PartCall where
  i : Int
  rangeStart : Int
  rangeEnd : Int
  deriving DecidableEq, Repr

/-- The downloader: the number of concurrent parts. -/
structure Downloader where
  concurrency : Int
  deriving DecidableEq, Repr

/-- Constructor of the downloader. -/
def NewDownloader (concurrency : Int) : Downloader := { concurrency := concurrency }

/-- Model of `strings.SplitN(s, ".", 2)`: the whole string when it has no dot, otherwise
the text before the first dot and the text after it. -/
def splitN2 (s : String) : List String :=
  match s.data.dropWhile (fun c => c != '.') with
  | [] => [s]
  | _ :: rest => [String.mk (s.data.takeWhile (fun c => c != '.')), String.mk rest]

/-- Model of `path.Base`. -/
def pathBase (p : String) : String :=
  if p = "" then "."
  else
    let r := p.data.reverse.dropWhile (fun c => c == '/')
    let b := (r.takeWhile (fun c => c != '/')).reverse
    if b = [] then "/" else String.mk b

/-- The value of the `Range` header: `fmt.Sprintf("bytes=%d-%d", rangeStart, rangeEnd)`. -/
def rangeHeader (rangeStart rangeEnd : Int) : String :=
  "bytes=" ++ toString rangeStart ++ "-" ++ toString rangeEnd

namespace Downloader

/-- The directory of the part files: `strings.SplitN(filename, ".", 2)[0]`. -/
def getPartDir (_d : Downloader) (filename : String) : String :=
  (splitN2 filename).headD ""

/-- The name of a part file: `fmt.Sprintf("%s/%s-%d", partDir, filename, partNum)`. -/
def getPartFilename (d : Downloader) (filename : String) (partNum : Int) : String :=
  d.getPartDir filename ++ "/" ++ filename ++ "-" ++ toString partNum

/-- The request `downloadPartial` sends, `none` when it returns before building one. -/
def partRequest (_d : Downloader) (strURL : String) (rangeStart rangeEnd : Int) :
    Option Request :=
  if rangeStart ≥ rangeEnd then none
  else some { method := "GET", url := strURL, range := rangeHeader rangeStart rangeEnd }

/-- The function `downloadPartial`. -/
def downloadPartial (d : Downloader) (net : Net) (strURL filename : String)
    (rangeStart rangeEnd i : Int) (fs : FS) : Step :=
  match d.partRequest strURL rangeStart rangeEnd with
  | none => Step.ok fs
  | some req =>
    match net.get req with
    | none => Step.fatal fs
    | some resp =>
      match osOpenFile fs (d.getPartFilename filename i) with
      | none => Step.fatal fs
      | some fs1 =>
        let fs2 := fileWrite fs1 (d.getPartFilename filename i) 0 resp.body
        if resp.readError then Step.fatal fs2 else Step.ok fs2

/-- The loop of `merge`, with `k` iterations left, at index `i`, the destination handle at
offset `off`. -/
def mergeLoop (d : Downloader) (filename : String) :
    Nat → Nat → Nat → FS → Option GoError × FS
  | 0, _, _, fs => (none, fs)
  | k + 1, i, off, fs =>
    let partFileName := d.getPartFilename filename (i : Int)
    match osOpen fs partFileName with
    | none => (some (GoError.openPart partFileName), fs)
    | some data =>
      let fs1 := fileWrite fs filename off data
      let fs2 := osRemove fs1 partFileName
      mergeLoop d filename k (i + 1) (off + data.length) fs2

/-- The function `merge`: the error it returns and the file system it leaves. -/
def merge (d : Downloader) (filename : String) (fs : FS) : Option GoError × FS :=
  match osOpenFile fs filename with
  | none => (some (GoError.openDest filename), fs)
  | some fs1 => mergeLoop d filename d.concurrency.toNat 0 0 fs1

/-- The loop of `multiDownload` that computes the arguments of the `downloadPartial` calls,
with `k` iterations left, at index `i`, the loop variable at `rangeStart`. -/
def planLoop (d : Downloader) (contentLen partSize : Int) : Nat → Int → Int → List PartCall
  | 0, _, _ => []
  | k + 1, i, rangeStart =>
    let rangeEnd := if i = d.concurrency - 1 then contentLen else rangeStart + partSize
    { i := i, rangeStart := rangeStart, rangeEnd := rangeEnd } ::
      planLoop d contentLen partSize k (i + 1) (rangeStart + (partSize + 1))

/-- The `downloadPartial` calls `multiDownload` makes for a resource of `contentLen` bytes. -/
def plan (d : Downloader) (contentLen : Int) : List PartCall :=
  planLoop d contentLen (Int.tdiv contentLen d.concurrency) d.concurrency.toNat 0 0

/-- Run the planned calls in index order until one ends the process. -/
def runParts (d : Downloader) (net : Net) (strURL filename : String) :
    List PartCall → FS → Step
  | [], fs => Step.ok fs
  | c :: rest, fs =>
    match d.downloadPartial net strURL filename c.rangeStart c.rangeEnd c.i fs with
    | Step.fatal fs1 => Step.fatal fs1
    | Step.ok fs1 => runParts d net strURL filename rest fs1

/-- The function `multiDownload`.  A zero concurrency panics in the division, before the
deferred removal is registered; a negative one panics in `wg.Add`, after it. -/
def multiDownload (d : Downloader) (net : Net) (strURL filename : String) (contentLen : Int)
    (fs : FS) : Outcome :=
  if d.concurrency = 0 then Outcome.panicked fs
  else
    let partDir := d.getPartDir filename
    let fs1 := osMkdir fs partDir
    if d.concurrency < 0 then Outcome.panicked (osRemoveAll fs1 partDir)
    else
      match d.runParts net strURL filename (d.plan contentLen) fs1 with
      | Step.fatal fs2 => Outcome.exited fs2
      | Step.ok fs2 => Outcome.returned none (osRemoveAll (d.merge filename fs2).2 partDir)

/-- The function `singleDownload`. -/
def singleDownload (_d : Downloader) (_strURL _filename : String) (fs : FS) : Outcome :=
  Outcome.returned none fs

/-- The function `Download`. -/
def Download (d : Downloader) (net : Net) (strURL filename : String) (fs : FS) : Outcome :=
  let filename := if filename = "" then pathBase strURL else filename
  match net.head strURL with
  | none => Outcome.returned (some GoError.probe) fs
  | some resp =>
    if resp.statusCode = 200 ∧ resp.acceptRanges = "bytes" then
      d.multiDownload net strURL filename resp.contentLength fs
    else d.singleDownload strURL filename fs

end Downloader

/-- A server that answers no request. -/
def deadNet : Net := { head := fun _ => none, get := fun _ => none }



/-! ## Decimal numerals -/

/-- Value of a decimal digit character. -/
def digitVal (c : Char) : Nat := c.toNat - 48

/-- Value of a string of decimal digits, most significant first. -/
def natOfDigits (cs : List Char) : Nat := cs.foldl (fun a c => 10 * a + digitVal c) 0

/-- Value of a decimal numeral with an optional leading minus sign. -/
def intOfDigits (cs : List Char) : Int :=
  if cs.head? = some '-' then -((natOfDigits cs.tail : Nat) : Int) else (natOfDigits cs : Nat)

/-- A decimal digit: one of the characters `0` to `9`. -/
def IsDecDigit (c : Char) : Prop := ∃ k, k < 10 ∧ c = Nat.digitChar k


/-! ## Vocabulary of the statements -/

/-- The contents `parts i`, `parts (i + 1)`, ..., `parts (i + k - 1)` one after the other. -/
def concatParts (parts : Nat → Bytes) : Nat → Nat → Bytes
  | _, 0 => []
  | i, k + 1 => parts i ++ concatParts parts (i + 1) k

/-- The two numbers of a `bytes=<first>-<last>` header value. -/
def parseRange (h : String) : Option (Nat × Nat) :=
  match h.data with
  | 'b' :: 'y' :: 't' :: 'e' :: 's' :: '=' :: rest =>
    match rest.dropWhile (fun c => c != '-') with
    | _ :: last => some (natOfDigits (rest.takeWhile (fun c => c != '-')), natOfDigits last)
    | [] => none
  | _ => none

/-- A server holding `resource` that supports ranges: the probe reports the length, and a
`GET` with `Range: bytes=a-b` is answered with the bytes at offsets `a` to `b` inclusive,
cut at the end of the resource; without a readable range it sends the whole resource. -/
def rangeServer (resource : Bytes) : Net :=
  { head := fun _ =>
      some { statusCode := 200, acceptRanges := "bytes", contentLength := resource.length },
    get := fun req =>
      match parseRange req.range with
      | some (a, b) => some { body := (resource.drop a).take (b + 1 - a), readError := false }
      | none => some { body := resource, readError := false } }

/-- A server whose probe answers `resp` and whose every `GET` fails. -/
def probeOnlyNet (resp : ProbeResponse) : Net :=
  { head := fun _ => some resp, get := fun _ => none }

/-- A server whose every `GET` delivers `body` and then breaks the connection. -/
def brokenBodyNet (body : Bytes) : Net :=
  { head := fun _ => none, get := fun _ => some { body := body, readError := true } }

/-- The bytes the range server sends for the call `(rangeStart, rangeEnd)`: the offsets
`rangeStart` to `rangeEnd` inclusive, cut at the end of the resource. -/
def rangeBytes (resource : Bytes) (rangeStart rangeEnd : Int) : Bytes :=
  (resource.drop rangeStart.toNat).take (rangeEnd.toNat + 1 - rangeStart.toNat)

/-! ## Decimal numerals -/

theorem digitVal_digitChar (k : Nat) (hk : k < 10) :
    digitVal (Nat.digitChar k) = k ∧ Nat.digitChar k ≠ '-' ∧ Nat.digitChar k ≠ '.'
      ∧ Nat.digitChar k ≠ '/' := by
  interval_cases k <;> decide

theorem natOfDigits_append_singleton (cs : List Char) (c : Char) :
    natOfDigits (cs ++ [c]) = 10 * natOfDigits cs + digitVal c := by
  simp [natOfDigits, List.foldl_append]

theorem toDigitsCore_spec : ∀ (fuel n : Nat) (ds : List Char), n < fuel →
    ∃ pre, Nat.toDigitsCore 10 fuel n ds = pre ++ ds ∧ natOfDigits pre = n ∧ pre ≠ [] ∧
      ∀ c ∈ pre, IsDecDigit c := by
  intro fuel
  induction fuel with
  | zero => intro n ds h; omega
  | succ fuel ih =>
    intro n ds h
    have hd := digitVal_digitChar (n % 10) (Nat.mod_lt _ (by decide))
    by_cases h0 : n / 10 = 0
    · refine ⟨[Nat.digitChar (n % 10)], ?_, ?_, by simp, ?_⟩
      · simp [Nat.toDigitsCore, h0]
      · have : natOfDigits [Nat.digitChar (n % 10)] = digitVal (Nat.digitChar (n % 10)) := by
          simp [natOfDigits]
        rw [this, hd.1]
        omega
      · intro c hc
        simp only [List.mem_singleton] at hc
        exact ⟨n % 10, Nat.mod_lt _ (by decide), hc⟩
    · obtain ⟨pre, hpre, hval, _, hdig⟩ :=
        ih (n / 10) (Nat.digitChar (n % 10) :: ds) (by omega)
      refine ⟨pre ++ [Nat.digitChar (n % 10)], ?_, ?_, by simp, ?_⟩
      · simp [Nat.toDigitsCore, h0, hpre]
      · rw [natOfDigits_append_singleton, hval, hd.1]
        omega
      · intro c hc
        rcases List.mem_append.1 hc with hc | hc
        · exact hdig c hc
        · simp only [List.mem_singleton] at hc
          exact ⟨n % 10, Nat.mod_lt _ (by decide), hc⟩

theorem toDigits_spec (n : Nat) :
    natOfDigits (Nat.toDigits 10 n) = n ∧ Nat.toDigits 10 n ≠ [] ∧
      ∀ c ∈ Nat.toDigits 10 n, IsDecDigit c := by
  obtain ⟨pre, hpre, hval, hne, hdig⟩ := toDigitsCore_spec (n + 1) n [] (by omega)
  have : Nat.toDigits 10 n = pre := by simp [Nat.toDigits, hpre]
  rw [this]
  exact ⟨hval, hne, hdig⟩

theorem toString_int_data (i : Int) :
    (toString i).data =
      if 0 ≤ i then Nat.toDigits 10 i.toNat else '-' :: Nat.toDigits 10 (-i).toNat := by
  cases i with
  | ofNat m => rfl
  | negSucc m => rfl

theorem intOfDigits_toString (i : Int) : intOfDigits (toString i).data = i := by
  rw [toString_int_data]
  split
  · rename_i h
    obtain ⟨hval, hne, hdig⟩ := toDigits_spec i.toNat
    have hhead : (Nat.toDigits 10 i.toNat).head? ≠ some '-' := by
      cases hl : Nat.toDigits 10 i.toNat with
      | nil => exact absurd hl hne
      | cons c cs =>
        obtain ⟨k, hk, rfl⟩ := hdig c (by rw [hl]; simp)
        simpa using (digitVal_digitChar k hk).2.1
    rw [intOfDigits, if_neg hhead, hval]
    omega
  · rename_i h
    simp only [intOfDigits, List.head?_cons, if_true, List.tail_cons, (toDigits_spec _).1]
    omega

theorem toString_int_injective {i j : Int} (h : toString i = toString j) : i = j := by
  rw [← intOfDigits_toString i, ← intOfDigits_toString j, h]

/-! ## Part file names and the `Range` header -/

/-- Appending to the same prefix is injective. -/
theorem string_append_left_cancel {p s t : String} (h : p ++ s = p ++ t) : s = t := by
  have := congrArg String.data h
  simp only [String.data_append, List.append_cancel_left_eq] at this
  exact String.ext this

namespace Downloader

/-- The part directory is the longest prefix of the file name without a dot. -/
theorem getPartDir_data (d : Downloader) (filename : String) :
    (d.getPartDir filename).data = filename.data.takeWhile (fun c => c != '.') := by
  unfold getPartDir splitN2
  split
  · rename_i h
    have := List.takeWhile_append_dropWhile (fun c => c != '.') filename.data
    rw [h, List.append_nil] at this
    simp [this]
  · simp

/-- C9: the part file of index `i ≥ 0` is named `D/filename-decimal(i)`, where the suffix is
a string of decimal digits of value `i` and `D = getPartDir filename` is the file name cut
at its first dot: `D` has no dot, and the file name is `D` itself or `D`, a dot and a rest.
For `archive.tar.gz` the directory is `archive` and for
`apache-zookeeper-3.7.0-bin.tar.gz` it is `apache-zookeeper-3`. -/
theorem getPartFilename_spec (d : Downloader) (filename : String) (i : Nat) :
    (∃ ds : List Char, (∀ c ∈ ds, IsDecDigit c) ∧ natOfDigits ds = i ∧
      d.getPartFilename filename (i : Int) =
        d.getPartDir filename ++ "/" ++ filename ++ "-" ++ String.mk ds) ∧
    (∀ c ∈ (d.getPartDir filename).data, c ≠ '.') ∧
    (d.getPartDir filename = filename ∨
      ∃ rest : String, filename = d.getPartDir filename ++ "." ++ rest) ∧
    d.getPartDir "archive.tar.gz" = "archive" ∧
    d.getPartDir "apache-zookeeper-3.7.0-bin.tar.gz" = "apache-zookeeper-3" := by
  refine ⟨?_, ?_, ?_,
    (by decide : (NewDownloader 1).getPartDir "archive.tar.gz" = "archive"),
    (by decide : (NewDownloader 1).getPartDir "apache-zookeeper-3.7.0-bin.tar.gz"
      = "apache-zookeeper-3")⟩
  · obtain ⟨hval, _, hdig⟩ := toDigits_spec i
    exact ⟨Nat.toDigits 10 i, hdig, hval, rfl⟩
  · intro c hc
    rw [getPartDir_data] at hc
    simpa using List.mem_takeWhile_imp hc
  · have hsplit := List.takeWhile_append_dropWhile (fun c => c != '.') filename.data
    cases hdrop : filename.data.dropWhile (fun c => c != '.') with
    | nil =>
      left
      apply String.ext
      rw [getPartDir_data]
      rw [hdrop, List.append_nil] at hsplit
      exact hsplit
    | cons c rest =>
      right
      have hc : c = '.' := by
        have := List.head_dropWhile_not (fun c => c != '.') filename.data
          (by rw [hdrop]; simp)
        simpa [hdrop] using this
      refine ⟨String.mk rest, ?_⟩
      apply String.ext
      rw [hdrop, hc] at hsplit
      simp only [String.data_append, getPartDir_data]
      rw [List.append_assoc]
      exact hsplit.symm

/-- C10: two different part indices give two different part file names. -/
theorem getPartFilename_injective (d : Downloader) (filename : String) (i j : Int)
    (hij : i ≠ j) : d.getPartFilename filename i ≠ d.getPartFilename filename j := by
  intro h
  unfold getPartFilename at h
  exact hij (toString_int_injective (string_append_left_cancel h))

/-- Witness for `getPartFilename_injective`: parts `0` and `1` of `a.bin`. -/
theorem getPartFilename_injective_witness :
    (NewDownloader 2).getPartFilename "a.bin" 0 ≠ (NewDownloader 2).getPartFilename "a.bin" 1 :=
  getPartFilename_injective (NewDownloader 2) "a.bin" 0 1 (by decide)

/-- C4 (as amended): for every part that is fetched (`rangeStart < rangeEnd`) the request
is a `GET` whose `Range` header is `bytes=<rangeStart>-<rangeEnd>`: the inclusive end bound
on the wire is the `rangeEnd` computed by `multiDownload` itself, and never the numeral
of `rangeEnd - 1`. -/
theorem partRequest_range (d : Downloader) (strURL : String) (rangeStart rangeEnd : Int)
    (h : rangeStart < rangeEnd) :
    d.partRequest strURL rangeStart rangeEnd =
      some { method := "GET", url := strURL,
             range := "bytes=" ++ toString rangeStart ++ "-" ++ toString rangeEnd } ∧
    rangeHeader rangeStart rangeEnd ≠
      "bytes=" ++ toString rangeStart ++ "-" ++ toString (rangeEnd - 1) := by
  constructor
  · unfold partRequest
    rw [if_neg (by omega)]
    rfl
  · intro heq
    unfold rangeHeader at heq
    have := toString_int_injective (string_append_left_cancel heq)
    omega

/-- Witness for `partRequest_range`: the first part of ten bytes in two parts. -/
theorem partRequest_range_witness :
    (NewDownloader 2).partRequest "u" 0 5 =
      some { method := "GET", url := "u",
             range := "bytes=" ++ toString (0 : Int) ++ "-" ++ toString (5 : Int) } ∧
    rangeHeader 0 5 ≠ "bytes=" ++ toString (0 : Int) ++ "-" ++ toString ((5 : Int) - 1) :=
  partRequest_range (NewDownloader 2) "u" 0 5 (by decide)

/-- C4 fails as stated: for the part `(rangeStart, rangeEnd) = (0, 5)` the header sent is
`bytes=0-5`, not `bytes=0-4`. -/
theorem partRequest_not_end_minus_one :
    (NewDownloader 2).partRequest "u" 0 5 =
      some { method := "GET", url := "u", range := "bytes=0-5" } ∧
    ((NewDownloader 2).partRequest "u" 0 5).map Request.range ≠
      some ("bytes=" ++ toString (0 : Int) ++ "-" ++ toString ((5 : Int) - 1)) := by
  decide

end Downloader
/-! ## The planned ranges -/

namespace Downloader

/-- Closed form of the planning loop, entry by entry. -/
theorem planLoop_getElem? (d : Downloader) (contentLen partSize : Int) :
    ∀ (k : Nat) (i rangeStart : Int) (j : Nat),
      (planLoop d contentLen partSize k i rangeStart)[j]? =
        if j < k then
          some { i := i + j, rangeStart := rangeStart + j * (partSize + 1),
                 rangeEnd := if i + j = d.concurrency - 1 then contentLen
                             else rangeStart + j * (partSize + 1) + partSize }
        else none := by
  intro k
  induction k with
  | zero => intro i rangeStart j; simp [planLoop]
  | succ k ih =>
    intro i rangeStart j
    cases j with
    | zero => simp [planLoop]
    | succ j =>
      simp only [planLoop, List.getElem?_cons_succ, ih, Nat.add_lt_add_iff_right]
      split
      · have e1 : i + 1 + (j : Int) = i + ((j + 1 : Nat) : Int) := by push_cast; ring
        have e2 : rangeStart + (partSize + 1) + (j : Int) * (partSize + 1)
            = rangeStart + ((j + 1 : Nat) : Int) * (partSize + 1) := by push_cast; ring
        rw [e1, e2]
      · rfl

/-- The planning loop makes one call per iteration. -/
theorem planLoop_length (d : Downloader) (contentLen partSize : Int) :
    ∀ (k : Nat) (i rangeStart : Int),
      (planLoop d contentLen partSize k i rangeStart).length = k := by
  intro k
  induction k with
  | zero => intro i rangeStart; rfl
  | succ k ih => intro i rangeStart; simp [planLoop, ih]

/-- The call planned for part `j`. -/
theorem plan_getElem? (d : Downloader) (contentLen : Int) (j : Nat) :
    (d.plan contentLen)[j]? =
      if j < d.concurrency.toNat then
        some { i := j, rangeStart := j * (Int.tdiv contentLen d.concurrency + 1),
               rangeEnd := if (j : Int) = d.concurrency - 1 then contentLen
                           else j * (Int.tdiv contentLen d.concurrency + 1)
                                + Int.tdiv contentLen d.concurrency }
      else none := by
  unfold plan
  rw [planLoop_getElem?]
  simp

end Downloader

namespace Downloader

/-- C1 (as amended): for every `totalLength ≥ 0` and `concurrency ≥ 1`, `multiDownload`
plans one range per part; read as the inclusive intervals `[rangeStart, rangeEnd]` that the
`Range` header carries, the first starts at `0`, each range ends one before the next one
starts, the last ends at `totalLength`, no two of them overlap, and every offset of
`[0, totalLength)` lies in one of them. -/
theorem plan_inclusive_ranges (d : Downloader) (totalLength : Int)
    (hc : 1 ≤ d.concurrency) (hl : 0 ≤ totalLength) :
    (d.plan totalLength).length = d.concurrency.toNat ∧
    (∀ (k : Nat) (c : PartCall), (d.plan totalLength)[k]? = some c → c.i = k) ∧
    (∀ c, (d.plan totalLength)[0]? = some c → c.rangeStart = 0) ∧
    (∀ (k : Nat) (c c' : PartCall), (d.plan totalLength)[k]? = some c → (d.plan totalLength)[k + 1]? = some c' →
        c.rangeEnd + 1 = c'.rangeStart) ∧
    (∀ c, (d.plan totalLength)[d.concurrency.toNat - 1]? = some c →
        c.rangeEnd = totalLength) ∧
    (∀ (j k : Nat) (c c' : PartCall), j < k → (d.plan totalLength)[j]? = some c →
        (d.plan totalLength)[k]? = some c' → c.rangeEnd < c'.rangeStart) ∧
    (∀ b : Int, 0 ≤ b → b < totalLength →
        ∃ (k : Nat) (c : PartCall), (d.plan totalLength)[k]? = some c ∧ c.rangeStart ≤ b ∧ b ≤ c.rangeEnd) := by
  have hp : 0 ≤ Int.tdiv totalLength d.concurrency := Int.tdiv_nonneg hl (by omega)
  generalize hpe : Int.tdiv totalLength d.concurrency = p at hp
  have hn : ((d.concurrency.toNat : Nat) : Int) = d.concurrency :=
    Int.toNat_of_nonneg (by omega)
  have key : ∀ (j : Nat) (c : PartCall), (d.plan totalLength)[j]? = some c →
      (j : Int) < d.concurrency ∧ c.i = j ∧ c.rangeStart = j * (p + 1) ∧
      c.rangeEnd = if (j : Int) = d.concurrency - 1 then totalLength
                   else j * (p + 1) + p := by
    intro j c h
    rw [plan_getElem?, hpe] at h
    split at h
    · rename_i hj
      simp only [Option.some.injEq] at h
      subst h
      refine ⟨by omega, rfl, rfl, rfl⟩
    · cases h
  refine ⟨?_, ?_, ?_, ?_, ?_, ?_, ?_⟩
  · exact planLoop_length _ _ _ _ _ _
  · intro k c h
    exact (key k c h).2.1
  · intro c h
    have := (key 0 c h).2.2.1
    simpa using this
  · intro k c c' h h'
    obtain ⟨_, _, _, he⟩ := key k c h
    obtain ⟨hk', _, hs', _⟩ := key (k + 1) c' h'
    rw [he, hs', if_neg (by push_cast at hk'; omega)]
    push_cast
    ring
  · intro c h
    obtain ⟨_, _, _, he⟩ := key _ c h
    rw [he, if_pos]
    have : ((d.concurrency.toNat - 1 : Nat) : Int) = (d.concurrency.toNat : Int) - 1 := by
      have : 1 ≤ d.concurrency.toNat := by omega
      omega
    rw [this, hn]
  · intro j k c c' hjk h h'
    obtain ⟨_, _, _, he⟩ := key j c h
    obtain ⟨hk', _, hs', _⟩ := key k c' h'
    rw [he, hs', if_neg (by omega)]
    have h1 : (j : Int) + 1 ≤ k := by exact_mod_cast hjk
    nlinarith
  · intro b hb0 hbl
    by_cases hlast : b < (d.concurrency - 1) * (p + 1)
    · have hq0 : 0 ≤ b / (p + 1) := Int.ediv_nonneg hb0 (by omega)
      have hlo : b / (p + 1) * (p + 1) ≤ b := Int.ediv_mul_le b (by omega)
      have hhi : b < (b / (p + 1) + 1) * (p + 1) :=
        Int.lt_ediv_add_one_mul_self b (by omega)
      have hqn : b / (p + 1) < d.concurrency - 1 := by
        by_contra hcon
        push_neg at hcon
        nlinarith
      have hcast : (((b / (p + 1)).toNat : Nat) : Int) = b / (p + 1) :=
        Int.toNat_of_nonneg hq0
      refine ⟨(b / (p + 1)).toNat,
        { i := ((b / (p + 1)).toNat : Nat),
          rangeStart := ((b / (p + 1)).toNat : Nat) * (p + 1),
          rangeEnd := if (((b / (p + 1)).toNat : Nat) : Int) = d.concurrency - 1
                      then totalLength
                      else ((b / (p + 1)).toNat : Nat) * (p + 1) + p }, ?_, ?_, ?_⟩
      · rw [plan_getElem?, if_pos (by omega), hpe]
      · simp only [hcast]
        exact hlo
      · simp only [hcast]
        rw [if_neg (by omega)]
        nlinarith
    · push_neg at hlast
      have hcast : ((d.concurrency.toNat - 1 : Nat) : Int) = d.concurrency - 1 := by
        have : 1 ≤ d.concurrency.toNat := by omega
        omega
      refine ⟨d.concurrency.toNat - 1,
        { i := ((d.concurrency.toNat - 1 : Nat) : Int),
          rangeStart := ((d.concurrency.toNat - 1 : Nat) : Int) * (p + 1),
          rangeEnd := if ((d.concurrency.toNat - 1 : Nat) : Int) = d.concurrency - 1
                      then totalLength
                      else ((d.concurrency.toNat - 1 : Nat) : Int) * (p + 1) + p }, ?_, ?_, ?_⟩
      · rw [plan_getElem?, if_pos (by omega), hpe]
      · simp only [hcast]
        exact hlast
      · simp only [hcast, if_true]
        omega

/-- Witness for `plan_inclusive_ranges`: ten bytes in two parts. -/
theorem plan_inclusive_ranges_witness :
    ((NewDownloader 2).plan 10).length = (NewDownloader 2).concurrency.toNat ∧
    (∀ (k : Nat) (c : PartCall), ((NewDownloader 2).plan 10)[k]? = some c → c.i = k) ∧
    (∀ c, ((NewDownloader 2).plan 10)[0]? = some c → c.rangeStart = 0) ∧
    (∀ (k : Nat) (c c' : PartCall), ((NewDownloader 2).plan 10)[k]? = some c →
        ((NewDownloader 2).plan 10)[k + 1]? = some c' → c.rangeEnd + 1 = c'.rangeStart) ∧
    (∀ c, ((NewDownloader 2).plan 10)[(NewDownloader 2).concurrency.toNat - 1]? = some c →
        c.rangeEnd = 10) ∧
    (∀ (j k : Nat) (c c' : PartCall), j < k → ((NewDownloader 2).plan 10)[j]? = some c →
        ((NewDownloader 2).plan 10)[k]? = some c' → c.rangeEnd < c'.rangeStart) ∧
    (∀ b : Int, 0 ≤ b → b < 10 →
        ∃ (k : Nat) (c : PartCall), ((NewDownloader 2).plan 10)[k]? = some c ∧ c.rangeStart ≤ b ∧ b ≤ c.rangeEnd) :=
  plan_inclusive_ranges (NewDownloader 2) 10 (by decide) (by decide)

/-- C1 fails as stated: for ten bytes in two parts the planned calls are `(0, 5)` and
`(6, 10)`, so the first range's end is not the second range's start, and offset `5` lies in
neither half-open interval `[0, 5)`, `[6, 10)`. -/
theorem plan_half_open_gap :
    (NewDownloader 2).plan 10 = [⟨0, 0, 5⟩, ⟨1, 6, 10⟩] ∧
    (∃ c c', ((NewDownloader 2).plan 10)[0]? = some c ∧
        ((NewDownloader 2).plan 10)[1]? = some c' ∧ c.rangeEnd ≠ c'.rangeStart) ∧
    ¬ ∃ c ∈ (NewDownloader 2).plan 10, c.rangeStart ≤ 5 ∧ 5 < c.rangeEnd := by
  refine ⟨by decide, ⟨⟨0, 0, 5⟩, ⟨1, 6, 10⟩, by decide, by decide, by decide⟩, by decide⟩

end Downloader

/-! ## File system lemmas -/

theorem fsLookup_erase_same (fs : FS) (name : String) : fsLookup (fsErase fs name) name = none := by
  induction fs with
  | nil => rfl
  | cons e rest ih =>
    obtain ⟨q, n⟩ := e
    by_cases h : q = name
    · simpa [fsErase, List.filter_cons, h] using ih
    · simpa [fsErase, List.filter_cons, h, fsLookup] using ih

theorem fsLookup_erase_other (fs : FS) {name q : String} (hq : q ≠ name) :
    fsLookup (fsErase fs name) q = fsLookup fs q := by
  induction fs with
  | nil => rfl
  | cons e rest ih =>
    obtain ⟨r, n⟩ := e
    by_cases h : r = name
    · have hrq : ¬ r = q := fun hr => hq (hr ▸ h)
      have e1 : fsErase ((r, n) :: rest) name = fsErase rest name := by
        simp [fsErase, List.filter_cons, h]
      rw [e1, ih]
      simp [fsLookup, hrq]
    · have e1 : fsErase ((r, n) :: rest) name = (r, n) :: fsErase rest name := by
        simp [fsErase, List.filter_cons, h]
      rw [e1]
      by_cases hr : r = q
      · simp [fsLookup, hr]
      · simp [fsLookup, hr, ih]

theorem fsLookup_set_same (fs : FS) (name : String) (n : Node) :
    fsLookup (fsSet fs name n) name = some n := by
  simp [fsSet, fsLookup]

theorem fsLookup_set_other (fs : FS) {name q : String} (n : Node) (hq : q ≠ name) :
    fsLookup (fsSet fs name n) q = fsLookup fs q := by
  have : name ≠ q := fun h => hq h.symm
  simp [fsSet, fsLookup, this, fsLookup_erase_other fs hq]

theorem osRemove_file_same {fs : FS} {name : String} {c : Bytes}
    (h : fsLookup fs name = some (Node.file c)) : fsLookup (osRemove fs name) name = none := by
  simp [osRemove, h, fsLookup_erase_same]

theorem osRemove_file_other {fs : FS} {name q : String} {c : Bytes}
    (h : fsLookup fs name = some (Node.file c)) (hq : q ≠ name) :
    fsLookup (osRemove fs name) q = fsLookup fs q := by
  simp [osRemove, h, fsLookup_erase_other fs hq]

theorem fileWrite_same {fs : FS} {name : String} {c : Bytes} (off : Nat) (data : Bytes)
    (h : fsLookup fs name = some (Node.file c)) :
    fsLookup (fileWrite fs name off data) name = some (Node.file (pwrite c off data)) := by
  simp [fileWrite, h, fsLookup_set_same]

theorem fileWrite_other (fs : FS) {name q : String} (off : Nat) (data : Bytes) (hq : q ≠ name) :
    fsLookup (fileWrite fs name off data) q = fsLookup fs q := by
  unfold fileWrite
  split
  · exact fsLookup_set_other fs _ hq
  · rfl

/-- What a successful `os.OpenFile` leaves: the file is there, with its old content or
empty when it was missing, and every other path is untouched. -/
theorem osOpenFile_some {fs fs1 : FS} {name : String} (h : osOpenFile fs name = some fs1) :
    (∃ c, fsLookup fs1 name = some (Node.file c) ∧
      (fsLookup fs name = some (Node.file c) ∨ (fsLookup fs name = none ∧ c = []))) ∧
    ∀ q, q ≠ name → fsLookup fs1 q = fsLookup fs q := by
  unfold osOpenFile at h
  split at h
  · rename_i c hc
    cases h
    exact ⟨⟨c, hc, Or.inl hc⟩, fun _ _ => rfl⟩
  · cases h
  · rename_i hc
    split at h
    · cases h
      exact ⟨⟨[], fsLookup_set_same _ _ _, Or.inr ⟨hc, rfl⟩⟩,
        fun q hq => fsLookup_set_other fs _ hq⟩
    · cases h

theorem pwrite_of_le {old : Bytes} {off : Nat} (data : Bytes) (h : off ≤ old.length) :
    pwrite old off data = old.take off ++ data ++ old.drop (off + data.length) := by
  unfold pwrite
  split
  · rename_i hd
    subst hd
    simp
  · simp [Nat.sub_eq_zero_of_le h]

theorem pwrite_length_ge {old : Bytes} {off : Nat} (data : Bytes) (h : off ≤ old.length) :
    off + data.length ≤ (pwrite old off data).length := by
  rw [pwrite_of_le data h]
  simp only [List.length_append, List.length_take, List.length_drop]
  omega

/-- Two writes through the same handle are one write of the two pieces. -/
theorem pwrite_pwrite {old : Bytes} {off : Nat} (a b : Bytes) (h : off ≤ old.length) :
    pwrite (pwrite old off a) (off + a.length) b = pwrite old off (a ++ b) := by
  rw [pwrite_of_le b (pwrite_length_ge a h), pwrite_of_le a h, pwrite_of_le (a ++ b) h]
  have hlen : (old.take off ++ a).length = off + a.length := by
    simp only [List.length_append, List.length_take]
    omega
  rw [List.take_left' hlen]
  have hdrop : List.drop (off + a.length + b.length)
      (old.take off ++ a ++ old.drop (off + a.length))
      = old.drop (off + (a ++ b).length) := by
    rw [← List.drop_drop, List.drop_left' hlen, List.drop_drop, List.length_append,
      Nat.add_assoc]
  rw [hdrop]
  simp [List.append_assoc]

/-- Writing from offset `0`: the data, then what the file held beyond its length. -/
theorem pwrite_zero (old data : Bytes) : pwrite old 0 data = data ++ old.drop data.length := by
  rw [pwrite_of_le data (Nat.zero_le _)]
  simp

/-! ## The merge step -/

namespace Downloader

/-- A part file is never the destination file. -/
theorem getPartFilename_ne_dest (d : Downloader) (filename : String) (i : Int) :
    d.getPartFilename filename i ≠ filename := by
  intro h
  have hlen := congrArg String.length h
  simp only [getPartFilename, String.length_append] at hlen
  have h1 : ("/" : String).length = 1 := rfl
  omega

/-- Part files of different natural indices are different files. -/
theorem getPartFilename_nat_ne (d : Downloader) (filename : String) {a b : Nat} (h : a ≠ b) :
    d.getPartFilename filename (a : Int) ≠ d.getPartFilename filename (b : Int) :=
  fun heq => h (by
    have := toString_int_injective (string_append_left_cancel heq)
    exact_mod_cast this)

/-- The loop of `merge` when the next `m` part files exist and, if iterations remain after
them, the following one is missing: the loop copies the `m` parts in order through the
destination handle, removes them, touches nothing else, and reports the missing part. -/
theorem mergeLoop_prefix (d : Downloader) (filename : String) (parts : Nat → Bytes) :
    ∀ (m k i off : Nat) (fs : FS) (old : Bytes), m ≤ k → off ≤ old.length →
      fsLookup fs filename = some (Node.file old) →
      (∀ j, j < m → fsLookup fs (d.getPartFilename filename ((i + j : Nat) : Int))
          = some (Node.file (parts (i + j)))) →
      (m < k → fsLookup fs (d.getPartFilename filename ((i + m : Nat) : Int)) = none) →
      (d.mergeLoop filename k i off fs).1 =
        (if m < k then
          some (GoError.openPart (d.getPartFilename filename ((i + m : Nat) : Int)))
         else none) ∧
      fsLookup (d.mergeLoop filename k i off fs).2 filename =
        some (Node.file (pwrite old off (concatParts parts i m))) ∧
      (∀ j, j < m →
        fsLookup (d.mergeLoop filename k i off fs).2
          (d.getPartFilename filename ((i + j : Nat) : Int)) = none) ∧
      (∀ q, q ≠ filename →
        (∀ j, j < m → q ≠ d.getPartFilename filename ((i + j : Nat) : Int)) →
        fsLookup (d.mergeLoop filename k i off fs).2 q = fsLookup fs q) := by
  intro m
  induction m with
  | zero =>
    intro k i off fs old _ _ hdest _ hmiss
    cases k with
    | zero =>
      refine ⟨by simp [mergeLoop], ?_, fun j hj => absurd hj (Nat.not_lt_zero j),
        fun q _ _ => rfl⟩
      simpa [mergeLoop, concatParts, pwrite] using hdest
    | succ k =>
      have hnone := hmiss (Nat.succ_pos k)
      simp only [Nat.add_zero] at hnone
      have hopen : osOpen fs (d.getPartFilename filename (i : Int)) = none := by
        simp [osOpen, hnone]
      refine ⟨by simp [mergeLoop, hopen], ?_, fun j hj => absurd hj (Nat.not_lt_zero j),
        fun q _ _ => by simp [mergeLoop, hopen]⟩
      simpa [mergeLoop, hopen, concatParts, pwrite] using hdest
  | succ m ih =>
    intro k i off fs old hmk hoff hdest hparts hmiss
    cases k with
    | zero => omega
    | succ k =>
      have hp0 : fsLookup fs (d.getPartFilename filename (i : Int))
          = some (Node.file (parts i)) := by
        simpa using hparts 0 (Nat.succ_pos m)
      have hopen : osOpen fs (d.getPartFilename filename (i : Int)) = some (parts i) := by
        simp [osOpen, hp0]
      have hstep : d.mergeLoop filename (k + 1) i off fs =
          d.mergeLoop filename k (i + 1) (off + (parts i).length)
            (osRemove (fileWrite fs filename off (parts i))
              (d.getPartFilename filename (i : Int))) := by
        simp [mergeLoop, hopen]
      have hp1 : fsLookup (fileWrite fs filename off (parts i))
          (d.getPartFilename filename (i : Int)) = some (Node.file (parts i)) := by
        rw [fileWrite_other fs off (parts i) (getPartFilename_ne_dest d filename i), hp0]
      have hfs2 : ∀ q, q ≠ filename → q ≠ d.getPartFilename filename (i : Int) →
          fsLookup (osRemove (fileWrite fs filename off (parts i))
            (d.getPartFilename filename (i : Int))) q = fsLookup fs q := by
        intro q hq hqi
        rw [osRemove_file_other hp1 hqi, fileWrite_other fs off (parts i) hq]
      have hdest2 : fsLookup (osRemove (fileWrite fs filename off (parts i))
            (d.getPartFilename filename (i : Int))) filename
          = some (Node.file (pwrite old off (parts i))) := by
        rw [osRemove_file_other hp1 (getPartFilename_ne_dest d filename i).symm,
          fileWrite_same off (parts i) hdest]
      have hidx : ∀ j : Nat, i + 1 + j = i + (j + 1) := fun j => by omega
      obtain ⟨he, hc, hr, hf⟩ := ih k (i + 1) (off + (parts i).length) _ _
        (Nat.le_of_succ_le_succ hmk) (pwrite_length_ge (parts i) hoff) hdest2
        (fun j hj => by
          rw [hfs2 _ (getPartFilename_ne_dest d filename _)
            (getPartFilename_nat_ne d filename (by omega)), hidx]
          exact hparts (j + 1) (Nat.succ_lt_succ hj))
        (fun hlt => by
          rw [hfs2 _ (getPartFilename_ne_dest d filename _)
            (getPartFilename_nat_ne d filename (by omega)), hidx]
          exact hmiss (Nat.succ_lt_succ hlt))
      rw [hstep]
      refine ⟨?_, ?_, ?_, ?_⟩
      · rw [he, hidx]
        simp only [Nat.add_lt_add_iff_right]
      · rw [hc, pwrite_pwrite _ _ hoff]
        rfl
      · intro j hj
        cases j with
        | zero =>
          rw [hf _ (getPartFilename_ne_dest d filename _)
            (fun j _ => getPartFilename_nat_ne d filename (by omega))]
          exact osRemove_file_same hp1
        | succ j =>
          have := hr j (Nat.lt_of_succ_lt_succ hj)
          rw [hidx] at this
          exact this
      · intro q hq hqs
        rw [hf q hq (fun j hj => by rw [hidx]; exact hqs (j + 1) (Nat.succ_lt_succ hj))]
        exact hfs2 q hq (by simpa using hqs 0 (Nat.succ_pos m))

end Downloader

namespace Downloader

/-- What `merge` does when all part files exist and the destination can be opened: it
returns no error, removes the part files, and writes their contents in index order from
offset `0` over what the destination held, so that a destination that did not exist holds
exactly the concatenation and an older one keeps its bytes beyond that length. -/
theorem merge_overwrites (d : Downloader) (filename : String) (fs : FS)
    (parts : Nat → Bytes)
    (hparts : ∀ j, j < d.concurrency.toNat →
      fsLookup fs (d.getPartFilename filename (j : Int)) = some (Node.file (parts j)))
    (hdest : (osOpenFile fs filename).isSome = true) :
    (d.merge filename fs).1 = none ∧
    (∀ j, j < d.concurrency.toNat →
      fsLookup (d.merge filename fs).2 (d.getPartFilename filename (j : Int)) = none) ∧
    (fsLookup fs filename = none →
      fsLookup (d.merge filename fs).2 filename =
        some (Node.file (concatParts parts 0 d.concurrency.toNat))) ∧
    (∀ old, fsLookup fs filename = some (Node.file old) →
      fsLookup (d.merge filename fs).2 filename =
        some (Node.file (concatParts parts 0 d.concurrency.toNat
          ++ old.drop (concatParts parts 0 d.concurrency.toNat).length))) ∧
    (∀ q, q ≠ filename →
      (∀ j, j < d.concurrency.toNat → q ≠ d.getPartFilename filename (j : Int)) →
      fsLookup (d.merge filename fs).2 q = fsLookup fs q) := by
  obtain ⟨fs1, hfs1⟩ := Option.isSome_iff_exists.1 hdest
  obtain ⟨⟨c, hc, hold⟩, hframe⟩ := osOpenFile_some hfs1
  have hmerge : d.merge filename fs = d.mergeLoop filename d.concurrency.toNat 0 0 fs1 := by
    simp [merge, hfs1]
  obtain ⟨he, hcont, hrem, hf⟩ := mergeLoop_prefix d filename parts d.concurrency.toNat
    d.concurrency.toNat 0 0 fs1 c (Nat.le_refl _) (Nat.zero_le _) hc
    (fun j hj => by
      rw [hframe _ (getPartFilename_ne_dest d filename _), Nat.zero_add]
      exact hparts j hj)
    (fun h => absurd h (Nat.lt_irrefl _))
  rw [hmerge]
  refine ⟨by simpa using he, ?_, ?_, ?_, ?_⟩
  · intro j hj
    simpa using hrem j hj
  · intro hnone
    rcases hold with h | ⟨_, h⟩
    · rw [hnone] at h
      cases h
    · rw [hcont, h, pwrite_zero]
      simp
  · intro old hfile
    rcases hold with h | ⟨h, _⟩
    · rw [hfile] at h
      cases h
      rw [hcont, pwrite_zero]
    · rw [hfile] at h
      cases h
  · intro q hq hqs
    rw [hf q hq (fun j hj => by rw [Nat.zero_add]; exact hqs j hj)]
    exact hframe q hq

/-- What `merge` does when the part files before index `m` exist, part file
`m < concurrency` is missing and the destination can be opened: it copies the parts
before `m`, returns the open error of part `m`, and leaves every other path, the later
part files among them, as it was; the parts it copied are removed. -/
theorem merge_stops_at_missing_part (d : Downloader) (filename : String) (fs : FS)
    (parts : Nat → Bytes) (m : Nat) (hm : m < d.concurrency.toNat)
    (hparts : ∀ j, j < m →
      fsLookup fs (d.getPartFilename filename (j : Int)) = some (Node.file (parts j)))
    (hmiss : fsLookup fs (d.getPartFilename filename (m : Int)) = none)
    (hdest : (osOpenFile fs filename).isSome = true) :
    (d.merge filename fs).1
      = some (GoError.openPart (d.getPartFilename filename (m : Int))) ∧
    (∃ old : Bytes,
      (fsLookup fs filename = some (Node.file old) ∨
        (fsLookup fs filename = none ∧ old = [])) ∧
      fsLookup (d.merge filename fs).2 filename
        = some (Node.file
            (concatParts parts 0 m ++ old.drop (concatParts parts 0 m).length))) ∧
    (∀ q, q ≠ filename → (∀ j, j < m → q ≠ d.getPartFilename filename (j : Int)) →
      fsLookup (d.merge filename fs).2 q = fsLookup fs q) ∧
    (∀ j, j < m →
      fsLookup (d.merge filename fs).2 (d.getPartFilename filename (j : Int)) = none) := by
  obtain ⟨fs1, hfs1⟩ := Option.isSome_iff_exists.1 hdest
  obtain ⟨⟨c, hc, hold⟩, hframe⟩ := osOpenFile_some hfs1
  have hmerge : d.merge filename fs = d.mergeLoop filename d.concurrency.toNat 0 0 fs1 := by
    simp [merge, hfs1]
  obtain ⟨he, hcont, hrem, hf⟩ := mergeLoop_prefix d filename parts m
    d.concurrency.toNat 0 0 fs1 c (Nat.le_of_lt hm) (Nat.zero_le _) hc
    (fun j hj => by
      rw [hframe _ (getPartFilename_ne_dest d filename _), Nat.zero_add]
      exact hparts j hj)
    (fun _ => by
      rw [hframe _ (getPartFilename_ne_dest d filename _), Nat.zero_add]
      exact hmiss)
  rw [hmerge]
  refine ⟨?_, ⟨c, hold, ?_⟩, ?_, ?_⟩
  · rw [he, if_pos hm, Nat.zero_add]
  · rw [hcont, pwrite_zero]
  · intro q hq hqs
    rw [hf q hq (fun j hj => by rw [Nat.zero_add]; exact hqs j hj)]
    exact hframe q hq
  · intro j hj
    simpa using hrem j hj

/-- A part whose `rangeStart >= rangeEnd` makes `downloadPartial` build no request and
return with the file system as it was. -/
theorem downloadPartial_skip (d : Downloader) (net : Net) (strURL filename : String)
    (rangeStart rangeEnd i : Int) (fs : FS) (hskip : rangeStart ≥ rangeEnd) :
    d.partRequest strURL rangeStart rangeEnd = none ∧
    d.downloadPartial net strURL filename rangeStart rangeEnd i fs = Step.ok fs := by
  have hreq : d.partRequest strURL rangeStart rangeEnd = none := by
    unfold partRequest
    rw [if_pos hskip]
  exact ⟨hreq, by simp [downloadPartial, hreq]⟩

/-- C3 (as amended): when the part files `0 .. concurrency - 1` all exist and no
destination exists yet at a path where a file can be created, `merge` returns no error,
leaves the destination holding the concatenation of the part contents in increasing
index order, and leaves none of those part files in existence. -/
theorem merge_concatenates (d : Downloader) (filename : String) (fs : FS)
    (parts : Nat → Bytes)
    (hparts : ∀ j, j < d.concurrency.toNat →
      fsLookup fs (d.getPartFilename filename (j : Int)) = some (Node.file (parts j)))
    (hnone : fsLookup fs filename = none) (hcreate : creatable fs filename = true) :
    (d.merge filename fs).1 = none ∧
    fsLookup (d.merge filename fs).2 filename =
      some (Node.file (concatParts parts 0 d.concurrency.toNat)) ∧
    (∀ j, j < d.concurrency.toNat →
      fsLookup (d.merge filename fs).2 (d.getPartFilename filename (j : Int)) = none) := by
  have hdest : (osOpenFile fs filename).isSome = true := by
    simp [osOpenFile, hnone, hcreate]
  obtain ⟨he, hrem, hcont, _⟩ := merge_overwrites d filename fs parts hparts hdest
  exact ⟨he, hcont hnone, hrem⟩

/-- Witness for `merge_concatenates`: two parts of one byte each, no destination yet. -/
theorem merge_concatenates_witness :
    ((NewDownloader 2).merge "a.bin"
        [("a/a.bin-0", Node.file [1]), ("a/a.bin-1", Node.file [2]), ("a", Node.dir)]).1
      = none ∧
    fsLookup ((NewDownloader 2).merge "a.bin"
        [("a/a.bin-0", Node.file [1]), ("a/a.bin-1", Node.file [2]), ("a", Node.dir)]).2
      "a.bin" = some (Node.file [1, 2]) :=
  have h := merge_concatenates (NewDownloader 2) "a.bin"
    [("a/a.bin-0", Node.file [1]), ("a/a.bin-1", Node.file [2]), ("a", Node.dir)]
    (fun j => if j = 0 then [1] else [2])
    (fun j hj => by
      have hj2 : j < 2 := hj
      interval_cases j <;> decide)
    (by decide) (by decide)
  ⟨h.1, h.2.1⟩

/-- C3 fails as stated: with the part file of `a.bin` holding `[1]` and a destination that
already holds `[9, 9, 9]`, `merge` leaves `[1, 9, 9]` in the destination, not `[1]`; and
with the part file of `archive` in place, the destination `archive` is the part directory
itself and `merge` returns an error. -/
theorem merge_keeps_old_tail :
    fsLookup ((NewDownloader 1).merge "a.bin"
        [("a/a.bin-0", Node.file [1]), ("a.bin", Node.file [9, 9, 9]), ("a", Node.dir)]).2
      "a.bin" = some (Node.file [1, 9, 9]) ∧
    concatParts (fun _ => [1]) 0 1 = [1] ∧
    (NewDownloader 1).getPartFilename "archive" 0 = "archive/archive-0" ∧
    ((NewDownloader 1).merge "archive"
        [("archive/archive-0", Node.file [1]), ("archive", Node.dir)]).1
      = some (GoError.openDest "archive") := by
  decide

/-- C8 fails on the code.  Eight bytes in four parts: the last part is planned as
`(9, 8)` and skipped, no part file is made for it, the three fetched parts hold all eight
bytes, and `merge` still ends with the open error of part `3`.  One byte in two parts
over a part directory that holds a part file of index `1`: part `0` is planned as
`(0, 0)` and skipped without a part file, `merge` stops at part `0` with an error, the
destination stays empty and part `1` is neither copied nor removed. -/
theorem skipped_part_not_empty :
    (NewDownloader 4).plan 8 = [⟨0, 0, 2⟩, ⟨1, 3, 5⟩, ⟨2, 6, 8⟩, ⟨3, 9, 8⟩] ∧
    (NewDownloader 4).partRequest "u" 9 8 = none ∧
    (NewDownloader 4).runParts (rangeServer [1, 2, 3, 4, 5, 6, 7, 8]) "u" "a.bin"
        ((NewDownloader 4).plan 8) (osMkdir [] "a")
      = Step.ok [("a/a.bin-2", Node.file [7, 8]), ("a/a.bin-1", Node.file [4, 5, 6]),
          ("a/a.bin-0", Node.file [1, 2, 3]), ("a", Node.dir)] ∧
    (NewDownloader 4).merge "a.bin"
        [("a/a.bin-2", Node.file [7, 8]), ("a/a.bin-1", Node.file [4, 5, 6]),
          ("a/a.bin-0", Node.file [1, 2, 3]), ("a", Node.dir)]
      = (some (GoError.openPart "a/a.bin-3"),
         [("a.bin", Node.file [1, 2, 3, 4, 5, 6, 7, 8]), ("a", Node.dir)]) ∧
    (NewDownloader 2).plan 1 = [⟨0, 0, 0⟩, ⟨1, 1, 1⟩] ∧
    (NewDownloader 2).downloadPartial deadNet "u" "a.bin" 0 0 0
        [("a/a.bin-1", Node.file [7]), ("a", Node.dir)]
      = Step.ok [("a/a.bin-1", Node.file [7]), ("a", Node.dir)] ∧
    (NewDownloader 2).merge "a.bin" [("a/a.bin-1", Node.file [7]), ("a", Node.dir)]
      = (some (GoError.openPart "a/a.bin-0"),
         [("a.bin", Node.file []), ("a/a.bin-1", Node.file [7]), ("a", Node.dir)]) := by
  decide

/-- C2 fails on the code: a resource of one byte `[7]`, fetched in two parts into `a.bin`
from an empty file system against the range server.  Both parts are planned with
`rangeStart = rangeEnd` and skipped, `merge` stops at the missing part `0`, and the
destination is left empty instead of holding `[7]`.  (Three bytes in two parts do come
back whole.) -/
theorem multiDownload_loses_short_resource :
    (NewDownloader 2).plan 1 = [⟨0, 0, 0⟩, ⟨1, 1, 1⟩] ∧
    (NewDownloader 2).multiDownload (rangeServer [7]) "u" "a.bin" 1 []
      = Outcome.returned none [("a.bin", Node.file [])] ∧
    (NewDownloader 2).Download (rangeServer [7]) "u" "a.bin" []
      = Outcome.returned none [("a.bin", Node.file [])] ∧
    (NewDownloader 2).multiDownload (rangeServer [7, 8, 9]) "u" "a.bin" 3 []
      = Outcome.returned none [("a.bin", Node.file [7, 8, 9])] := by
  decide

/-- C5 fails on the code: `Download` on the range-capable path returns `nil` although the
merge step failed.  For one byte in two parts no part file is made and `merge` fails to
open part `0`; for the dotless name `archive` the destination is the part directory and
`merge` fails to open it.  Both times `Download` returns no error. -/
theorem Download_drops_merge_error :
    (NewDownloader 2).merge "a.bin" (osMkdir [] "a")
      = (some (GoError.openPart "a/a.bin-0"), [("a.bin", Node.file []), ("a", Node.dir)]) ∧
    (NewDownloader 2).Download (probeOnlyNet ⟨200, "bytes", 1⟩) "http://h/a.bin" "" []
      = Outcome.returned none [("a.bin", Node.file [])] ∧
    (NewDownloader 2).merge "archive" (osMkdir [] "archive")
      = (some (GoError.openDest "archive"), [("archive", Node.dir)]) ∧
    (NewDownloader 2).Download (probeOnlyNet ⟨200, "bytes", 1⟩) "http://h/archive" "" []
      = Outcome.returned none [] := by
  decide

/-- C7 fails on the code: when a part fetch fails, `log.Fatal` ends the process before the
deferred removal runs.  With a request that fails, the part directory `a` is left behind;
with a body that breaks after one byte, the directory and the part file are left behind. -/
theorem multiDownload_fatal_keeps_partDir :
    (NewDownloader 1).multiDownload deadNet "u" "a.bin" 2 []
      = Outcome.exited [("a", Node.dir)] ∧
    (NewDownloader 1).multiDownload (brokenBodyNet [5]) "u" "a.bin" 2 []
      = Outcome.exited [("a/a.bin-0", Node.file [5]), ("a", Node.dir)] := by
  decide

/-- C6 (as amended): the choice between the two strategies does not look at the content
length.  When the probe answers, `Download` takes the single-connection fallback, which
leaves the file system untouched, exactly when the status is not `200` or the
`Accept-Ranges` header is not `bytes`; otherwise it runs `multiDownload` with the reported
content length, negative or not. -/
theorem Download_route (d : Downloader) (net : Net) (strURL filename : String) (fs : FS)
    (resp : ProbeResponse) (hprobe : net.head strURL = some resp) :
    (¬ (resp.statusCode = 200 ∧ resp.acceptRanges = "bytes") →
      d.Download net strURL filename fs
        = d.singleDownload strURL (if filename = "" then pathBase strURL else filename) fs ∧
      d.Download net strURL filename fs = Outcome.returned none fs) ∧
    ((resp.statusCode = 200 ∧ resp.acceptRanges = "bytes") →
      d.Download net strURL filename fs
        = d.multiDownload net strURL (if filename = "" then pathBase strURL else filename)
            resp.contentLength fs) := by
  constructor
  · intro h
    simp only [Download, hprobe, if_neg h, singleDownload, and_self]
  · intro h
    simp only [Download, hprobe, if_pos h]

/-- Witness for `Download_route`: a probe answered with status `404`. -/
theorem Download_route_witness :
    (NewDownloader 2).Download (probeOnlyNet ⟨404, "bytes", -1⟩) "u" "a.bin" []
      = Outcome.returned none [] :=
  ((Download_route (NewDownloader 2) (probeOnlyNet ⟨404, "bytes", -1⟩) "u" "a.bin" []
    ⟨404, "bytes", -1⟩ rfl).1 (by decide)).2

/-- C6 fails as stated: a probe answered with status `200`, `Accept-Ranges: bytes` and
content length `-1` sends `Download` into `multiDownload`, which makes the part directory
and leaves an empty destination file; the fallback would have left the file system
untouched. -/
theorem Download_negative_length_multi :
    (NewDownloader 2).Download (probeOnlyNet ⟨200, "bytes", -1⟩) "u" "a.bin" []
      = (NewDownloader 2).multiDownload (probeOnlyNet ⟨200, "bytes", -1⟩) "u" "a.bin" (-1) [] ∧
    osMkdir [] ((NewDownloader 2).getPartDir "a.bin") = [("a", Node.dir)] ∧
    (NewDownloader 2).Download (probeOnlyNet ⟨200, "bytes", -1⟩) "u" "a.bin" []
      = Outcome.returned none [("a.bin", Node.file [])] ∧
    (NewDownloader 2).Download (probeOnlyNet ⟨200, "bytes", -1⟩) "u" "a.bin" []
      ≠ (NewDownloader 2).singleDownload "u" "a.bin" [] := by
  decide

end Downloader

/-! ## A whole download against the range server -/

theorem fsLookup_filter (f : String → Bool) (fs : FS) (q : String) :
    fsLookup (fs.filter (fun e => f e.1)) q = if f q = true then fsLookup fs q else none := by
  induction fs with
  | nil => simp [fsLookup]
  | cons e rest ih =>
    obtain ⟨r, n⟩ := e
    by_cases hr : f r = true
    · rw [List.filter_cons_of_pos (by simpa using hr)]
      by_cases hrq : r = q
      · subst hrq
        simp [fsLookup, hr]
      · simp only [fsLookup, if_neg hrq]
        exact ih
    · rw [List.filter_cons_of_neg (by simpa using hr), ih]
      by_cases hrq : r = q
      · subst hrq
        simp [hr]
      · simp [fsLookup, hrq]

/-- The digits of a natural number contain no minus sign, dot or slash. -/
theorem toDigits_no_sep (n : Nat) (c : Char) (hc : c ∈ Nat.toDigits 10 n) :
    c ≠ '-' ∧ c ≠ '.' ∧ c ≠ '/' := by
  obtain ⟨k, hk, rfl⟩ := (toDigits_spec n).2.2 c hc
  exact (digitVal_digitChar k hk).2

theorem parseRange_rangeHeader (a b : Int) (ha : 0 ≤ a) (hb : 0 ≤ b) :
    parseRange (rangeHeader a b) = some (a.toNat, b.toNat) := by
  have hdata : (rangeHeader a b).data =
      'b' :: 'y' :: 't' :: 'e' :: 's' :: '=' ::
        (Nat.toDigits 10 a.toNat ++ '-' :: Nat.toDigits 10 b.toNat) := by
    simp only [rangeHeader, String.data_append, toString_int_data, if_pos ha, if_pos hb]
    simp
  have hpos : ∀ c ∈ Nat.toDigits 10 a.toNat, (c != '-') = true := by
    intro c hc
    simpa using (toDigits_no_sep _ c hc).1
  unfold parseRange
  rw [hdata]
  simp only [List.dropWhile_append_of_pos hpos, List.takeWhile_append_of_pos hpos]
  rw [List.dropWhile_cons_of_neg (by simp), List.takeWhile_cons_of_neg (by simp)]
  simp [(toDigits_spec _).1]

theorem rangeServer_get (resource : Bytes) (strURL : String) (a b : Int)
    (ha : 0 ≤ a) (hb : 0 ≤ b) :
    (rangeServer resource).get { method := "GET", url := strURL, range := rangeHeader a b }
      = some { body := rangeBytes resource a b, readError := false } := by
  simp [rangeServer, parseRange_rangeHeader a b ha hb, rangeBytes]

/-- A non-empty name without a slash can be created in the working directory. -/
theorem creatable_of_no_slash (fs : FS) (name : String) (hne : name.data ≠ [])
    (hns : ∀ c ∈ name.data, c ≠ '/') : creatable fs name = true := by
  have hall : ∀ c ∈ name.data.reverse, (c != '/') = true := by
    intro c hc
    simpa using hns c (List.mem_reverse.1 hc)
  have htake : name.data.reverse.takeWhile (fun c => c != '/') = name.data.reverse :=
    List.takeWhile_eq_self_iff.2 hall
  have hdrop : name.data.reverse.dropWhile (fun c => c != '/') = [] :=
    List.dropWhile_eq_nil_iff.2 hall
  unfold creatable
  simp only [htake, hdrop]
  simp [hne]

namespace Downloader

/-- The characters of a part file name. -/
theorem getPartFilename_data (d : Downloader) (filename : String) (j : Nat) :
    (d.getPartFilename filename (j : Int)).data =
      (d.getPartDir filename).data ++
        '/' :: (filename.data ++ '-' :: Nat.toDigits 10 j) := by
  simp only [getPartFilename, String.data_append, toString_int_data,
    if_pos (Int.natCast_nonneg j), Int.toNat_natCast]
  simp

/-- A part file can be created as soon as the part directory exists (or is the root). -/
theorem creatable_part (d : Downloader) (fs : FS) (filename : String) (j : Nat)
    (hns : ∀ c ∈ filename.data, c ≠ '/')
    (hdir : (d.getPartDir filename).data = [] ∨
      fsLookup fs (d.getPartDir filename) = some Node.dir) :
    creatable fs (d.getPartFilename filename (j : Int)) = true := by
  have hall : ∀ c ∈ (filename.data ++ '-' :: Nat.toDigits 10 j).reverse,
      (c != '/') = true := by
    intro c hc
    rcases List.mem_append.1 (List.mem_reverse.1 hc) with h | h
    · simpa using hns c h
    · rcases List.mem_cons.1 h with h | h
      · subst h
        decide
      · simpa using (toDigits_no_sep j c h).2.2
  have hrev : (d.getPartFilename filename (j : Int)).data.reverse =
      (filename.data ++ '-' :: Nat.toDigits 10 j).reverse ++
        '/' :: (d.getPartDir filename).data.reverse := by
    rw [getPartFilename_data]
    simp
  have hne : (filename.data ++ '-' :: Nat.toDigits 10 j).reverse ≠ [] := by simp
  unfold creatable
  simp only [hrev, List.takeWhile_append_of_pos hall, List.dropWhile_append_of_pos hall]
  rw [List.takeWhile_cons_of_neg (by simp), List.dropWhile_cons_of_neg (by simp),
    List.append_nil, if_neg hne]
  rcases hdir with h | h
  · simp [h]
  · simp only [List.reverse_reverse]
    split
    · rfl
    · simpa using h

/-- A fetched part against the range server: the part file is created and holds the bytes
of its range; every other path stays as it was. -/
theorem downloadPartial_fetch (d : Downloader) (resource : Bytes) (strURL filename : String)
    (rangeStart rangeEnd : Int) (j : Nat) (fs : FS)
    (hlt : rangeStart < rangeEnd) (h0 : 0 ≤ rangeStart)
    (hnone : fsLookup fs (d.getPartFilename filename (j : Int)) = none)
    (hcreate : creatable fs (d.getPartFilename filename (j : Int)) = true) :
    ∃ fs', d.downloadPartial (rangeServer resource) strURL filename rangeStart rangeEnd j fs
        = Step.ok fs' ∧
      fsLookup fs' (d.getPartFilename filename (j : Int))
        = some (Node.file (rangeBytes resource rangeStart rangeEnd)) ∧
      ∀ q, q ≠ d.getPartFilename filename (j : Int) → fsLookup fs' q = fsLookup fs q := by
  have hreq := (partRequest_range d strURL rangeStart rangeEnd hlt).1
  have hget := rangeServer_get resource strURL rangeStart rangeEnd h0 (by omega)
  have hopen : osOpenFile fs (d.getPartFilename filename (j : Int))
      = some (fsSet fs (d.getPartFilename filename (j : Int)) (Node.file [])) := by
    simp [osOpenFile, hnone, hcreate]
  refine ⟨fileWrite (fsSet fs (d.getPartFilename filename (j : Int)) (Node.file []))
      (d.getPartFilename filename (j : Int)) 0 (rangeBytes resource rangeStart rangeEnd),
    ?_, ?_, ?_⟩
  · unfold downloadPartial
    rw [hreq]
    simp only []
    have hget' : (rangeServer resource).get
        { method := "GET", url := strURL,
          range := "bytes=" ++ toString rangeStart ++ "-" ++ toString rangeEnd }
        = some { body := rangeBytes resource rangeStart rangeEnd, readError := false } := hget
    rw [hget']
    simp only [hopen]
    simp
  · rw [fileWrite_same 0 _ (fsLookup_set_same _ _ _), pwrite_zero]
    simp
  · intro q hq
    rw [fileWrite_other _ 0 _ hq, fsLookup_set_other _ _ hq]

end Downloader

namespace Downloader

/-- The part directory is not one of the part files. -/
theorem getPartDir_ne_part (d : Downloader) (filename : String) (i : Int) :
    d.getPartDir filename ≠ d.getPartFilename filename i := by
  intro h
  have hlen := congrArg String.length h
  simp only [getPartFilename, String.length_append] at hlen
  have h1 : ("/" : String).length = 1 := rfl
  omega

/-- The planned calls run against the range server, from index `i` on: no call ends the
process; part `j` ends with a part file holding the bytes of its range when it is fetched
and with no part file when it is skipped; nothing else changes. -/
theorem runParts_planLoop (d : Downloader) (resource : Bytes) (strURL filename : String)
    (contentLen partSize : Int) (hp : 0 ≤ partSize)
    (hns : ∀ c ∈ filename.data, c ≠ '/') :
    ∀ (k i : Nat) (fs : FS),
      ((d.getPartDir filename).data = [] ∨
        fsLookup fs (d.getPartDir filename) = some Node.dir) →
      (∀ j, i ≤ j → fsLookup fs (d.getPartFilename filename (j : Int)) = none) →
      ∃ fs', d.runParts (rangeServer resource) strURL filename
          (d.planLoop contentLen partSize k (i : Int) ((i : Int) * (partSize + 1))) fs
          = Step.ok fs' ∧
        (∀ j, i ≤ j → j < i + k →
          fsLookup fs' (d.getPartFilename filename (j : Int)) =
            if (j : Int) * (partSize + 1) <
                (if (j : Int) = d.concurrency - 1 then contentLen
                 else (j : Int) * (partSize + 1) + partSize)
            then some (Node.file (rangeBytes resource ((j : Int) * (partSize + 1))
                (if (j : Int) = d.concurrency - 1 then contentLen
                 else (j : Int) * (partSize + 1) + partSize)))
            else none) ∧
        (∀ j, i + k ≤ j → fsLookup fs' (d.getPartFilename filename (j : Int)) = none) ∧
        (∀ q, (∀ j : Nat, q ≠ d.getPartFilename filename (j : Int)) →
          fsLookup fs' q = fsLookup fs q) ∧
        (∀ j, j < i → fsLookup fs' (d.getPartFilename filename (j : Int))
          = fsLookup fs (d.getPartFilename filename (j : Int))) := by
  intro k
  induction k with
  | zero =>
    intro i fs _ hfree
    exact ⟨fs, rfl, fun j h1 h2 => absurd h2 (by omega), fun j hj => hfree j (by omega),
      fun _ _ => rfl, fun _ _ => rfl⟩
  | succ k ih =>
    intro i fs hdir hfree
    have e1 : (i : Int) + 1 = ((i + 1 : Nat) : Int) := by push_cast; rfl
    have e2 : (i : Int) * (partSize + 1) + (partSize + 1)
        = ((i + 1 : Nat) : Int) * (partSize + 1) := by push_cast; ring
    have hloop : d.planLoop contentLen partSize (k + 1) (i : Int) ((i : Int) * (partSize + 1))
        = { i := (i : Int), rangeStart := (i : Int) * (partSize + 1),
            rangeEnd := if (i : Int) = d.concurrency - 1 then contentLen
                        else (i : Int) * (partSize + 1) + partSize } ::
          d.planLoop contentLen partSize k ((i + 1 : Nat) : Int)
            (((i + 1 : Nat) : Int) * (partSize + 1)) := by
      rw [← e2, ← e1]
      rfl
    rw [hloop]
    have hrs0 : 0 ≤ (i : Int) * (partSize + 1) :=
      Int.mul_nonneg (Int.natCast_nonneg i) (by omega)
    by_cases hf : (i : Int) * (partSize + 1) <
        (if (i : Int) = d.concurrency - 1 then contentLen
         else (i : Int) * (partSize + 1) + partSize)
    · obtain ⟨fs1, hstep, hfile, hframe⟩ := downloadPartial_fetch d resource strURL filename
        _ _ i fs hf hrs0 (hfree i (Nat.le_refl i)) (creatable_part d fs filename i hns hdir)
      obtain ⟨fs', hrun, hin, hout, hother, hbefore⟩ := ih (i + 1) fs1
        (by
          rcases hdir with h | h
          · exact Or.inl h
          · exact Or.inr (by rw [hframe _ (getPartDir_ne_part d filename _)]; exact h))
        (fun j hj => by
          rw [hframe _ (getPartFilename_nat_ne d filename (by omega))]
          exact hfree j (by omega))
      refine ⟨fs', ?_, ?_, ?_, ?_, ?_⟩
      · simp only [runParts, hstep]
        exact hrun
      · intro j h1 h2
        by_cases hji : j = i
        · subst hji
          rw [hbefore j (Nat.lt_succ_self j), hfile, if_pos hf]
        · exact hin j (by omega) (by omega)
      · intro j hj
        exact hout j (by omega)
      · intro q hq
        rw [hother q hq, hframe q (hq i)]
      · intro j hj
        rw [hbefore j (by omega), hframe _ (getPartFilename_nat_ne d filename (by omega))]
    · have hstep := (downloadPartial_skip d (rangeServer resource) strURL filename
        ((i : Int) * (partSize + 1))
        (if (i : Int) = d.concurrency - 1 then contentLen
         else (i : Int) * (partSize + 1) + partSize) i fs (by omega)).2
      obtain ⟨fs', hrun, hin, hout, hother, hbefore⟩ := ih (i + 1) fs hdir
        (fun j hj => hfree j (by omega))
      refine ⟨fs', ?_, ?_, ?_, hother, ?_⟩
      · simp only [runParts, hstep]
        exact hrun
      · intro j h1 h2
        by_cases hji : j = i
        · subst hji
          rw [hbefore j (Nat.lt_succ_self j), if_neg hf]
          exact hfree j (Nat.le_refl j)
        · exact hin j (by omega) (by omega)
      · intro j hj
        exact hout j (by omega)
      · intro j hj
        exact hbefore j (by omega)

end Downloader

theorem concatParts_succ_right (parts : Nat → Bytes) :
    ∀ (k i : Nat), concatParts parts i (k + 1) = concatParts parts i k ++ parts (i + k) := by
  intro k
  induction k with
  | zero => intro i; simp [concatParts]
  | succ k ih =>
    intro i
    have h := ih (i + 1)
    have hidx : i + 1 + k = i + (k + 1) := by omega
    rw [hidx] at h
    rw [concatParts, h, concatParts, List.append_assoc]

/-- Consecutive chunks of `w` bytes, from chunk `i` on, are a window of the resource. -/
theorem concatParts_chunks (resource : Bytes) (parts : Nat → Bytes) (w m : Nat)
    (hparts : ∀ j, j < m → parts j = (resource.drop (j * w)).take w) :
    ∀ (k i : Nat), i + k ≤ m →
      concatParts parts i k = (resource.drop (i * w)).take (k * w) := by
  intro k
  induction k with
  | zero => intro i _; simp [concatParts]
  | succ k ih =>
    intro i hik
    rw [concatParts, ih (i + 1) (by omega), hparts i (by omega)]
    have h1 : (k + 1) * w = w + k * w := by ring
    have h2 : (i + 1) * w = i * w + w := by ring
    rw [h1, List.take_add, List.drop_drop, h2]

/-- What the range server sends for a full chunk. -/
theorem rangeBytes_chunk (resource : Bytes) (j P : Nat) :
    rangeBytes resource ((j : Int) * ((P : Int) + 1)) ((j : Int) * ((P : Int) + 1) + (P : Int))
      = (resource.drop (j * (P + 1))).take (P + 1) := by
  have h1 : (j : Int) * ((P : Int) + 1) = ((j * (P + 1) : Nat) : Int) := by push_cast; ring
  have h2 : (j : Int) * ((P : Int) + 1) + (P : Int) = ((j * (P + 1) + P : Nat) : Int) := by
    push_cast; ring
  rw [rangeBytes, h2, h1, Int.toNat_natCast, Int.toNat_natCast]
  congr 1
  omega

/-- What the range server sends for a range that ends at the length of the resource. -/
theorem rangeBytes_tail (resource : Bytes) (s : Nat) :
    rangeBytes resource (s : Int) (resource.length : Int) = resource.drop s := by
  rw [rangeBytes, Int.toNat_natCast, Int.toNat_natCast]
  apply List.take_of_length_le
  rw [List.length_drop]
  omega

/-- What `os.Mkdir` leaves at the part directory of a name without a slash, when nothing
was there: a directory, unless the name is empty; no other path changes. -/
theorem osMkdir_partDir (fs : FS) (dir : String) (hns : ∀ c ∈ dir.data, c ≠ '/')
    (hnone : fsLookup fs dir = none) :
    (dir.data = [] ∨ fsLookup (osMkdir fs dir) dir = some Node.dir) ∧
    ∀ q, q ≠ dir → fsLookup (osMkdir fs dir) q = fsLookup fs q := by
  by_cases hne : dir.data = []
  · refine ⟨Or.inl hne, fun q _ => ?_⟩
    have : creatable fs dir = false := by simp [creatable, hne]
    simp [osMkdir, hnone, this]
  · have hcr := creatable_of_no_slash fs dir hne hns
    have : osMkdir fs dir = fsSet fs dir Node.dir := by simp [osMkdir, hnone, hcr]
    rw [this]
    exact ⟨Or.inr (fsLookup_set_same _ _ _), fun q hq => fsLookup_set_other fs _ hq⟩

/-- Looking up a path after `os.RemoveAll`: gone when it is the removed path or lies
below it, untouched otherwise. -/
theorem osRemoveAll_lookup (fs : FS) (name q : String) :
    fsLookup (osRemoveAll fs name) q = none ∨
      fsLookup (osRemoveAll fs name) q = fsLookup fs q := by
  unfold osRemoveAll
  split
  · exact Or.inr rfl
  · rw [fsLookup_filter (fun p => !(decide (p = name) || isUnder name p)) fs q]
    split
    · exact Or.inr rfl
    · exact Or.inl rfl

theorem osRemoveAll_lookup_other (fs : FS) (name q : String) (hq : q ≠ name)
    (hunder : isUnder name q = false) :
    fsLookup (osRemoveAll fs name) q = fsLookup fs q := by
  unfold osRemoveAll
  split
  · rfl
  · rw [fsLookup_filter (fun p => !(decide (p = name) || isUnder name p)) fs q]
    simp [hq, hunder]

theorem osRemoveAll_lookup_same (fs : FS) (name : String) (hne : name ≠ "") :
    fsLookup (osRemoveAll fs name) name = none := by
  unfold osRemoveAll
  rw [if_neg hne, fsLookup_filter (fun p => !(decide (p = name) || isUnder name p)) fs name]
  simp

/-- A name without a slash lies below no directory. -/
theorem isUnder_of_no_slash (dir name : String) (hns : ∀ c ∈ name.data, c ≠ '/') :
    isUnder dir name = false := by
  cases h : isUnder dir name with
  | false => rfl
  | true =>
    exfalso
    unfold isUnder at h
    obtain ⟨t, ht⟩ := List.isPrefixOf_iff_prefix.1 h
    apply hns '/' _ rfl
    rw [← ht]
    simp

namespace Downloader

/-- The part directory has no character that the file name does not have. -/
theorem getPartDir_subset (d : Downloader) (filename : String) (c : Char)
    (hc : c ∈ (d.getPartDir filename).data) : c ∈ filename.data := by
  rw [getPartDir_data] at hc
  exact (List.takeWhile_prefix _).subset hc

/-- The file system a run of `multiDownload` reaches before `merge`, for a resource of at
least `concurrency` bytes served by the range server: the parts before the last hold
consecutive chunks of `partSize + 1` bytes, the last part holds the rest or is missing when
nothing is left, and no destination exists yet. -/
theorem runParts_plan_chunks (d : Downloader) (resource : Bytes) (strURL filename : String)
    (fs : FS) (hc : 1 ≤ d.concurrency) (hlen : d.concurrency ≤ (resource.length : Int))
    (hns : ∀ c ∈ filename.data, c ≠ '/') (hdot : '.' ∈ filename.data)
    (hdest : fsLookup fs filename = none)
    (hdirnone : fsLookup fs (d.getPartDir filename) = none)
    (hfree : ∀ j : Nat, fsLookup fs (d.getPartFilename filename (j : Int)) = none) :
    ∃ (fs2 : FS) (parts : Nat → Bytes) (w : Nat),
      d.runParts (rangeServer resource) strURL filename (d.plan (resource.length : Int))
        (osMkdir fs (d.getPartDir filename)) = Step.ok fs2 ∧
      (∀ j, j < d.concurrency.toNat - 1 →
        fsLookup fs2 (d.getPartFilename filename (j : Int)) = some (Node.file (parts j)) ∧
        parts j = (resource.drop (j * w)).take w) ∧
      ((fsLookup fs2 (d.getPartFilename filename ((d.concurrency.toNat - 1 : Nat) : Int))
            = some (Node.file (parts (d.concurrency.toNat - 1))) ∧
          parts (d.concurrency.toNat - 1)
            = resource.drop ((d.concurrency.toNat - 1) * w)) ∨
        (fsLookup fs2 (d.getPartFilename filename ((d.concurrency.toNat - 1 : Nat) : Int))
            = none ∧
          resource.length ≤ (d.concurrency.toNat - 1) * w)) ∧
      (∀ j, d.concurrency.toNat ≤ j →
        fsLookup fs2 (d.getPartFilename filename (j : Int)) = none) ∧
      fsLookup fs2 filename = none := by
  have hn : ((d.concurrency.toNat : Nat) : Int) = d.concurrency :=
    Int.toNat_of_nonneg (by omega)
  have hn1 : 1 ≤ d.concurrency.toNat := by omega
  have hnl : d.concurrency.toNat ≤ resource.length := by omega
  obtain ⟨P, hP⟩ : ∃ P : Nat, P = resource.length / d.concurrency.toNat := ⟨_, rfl⟩
  have hP1 : 1 ≤ P := by
    rw [hP]
    exact Nat.div_pos hnl (by omega)
  have hp : Int.tdiv (resource.length : Int) d.concurrency = (P : Int) := by
    rw [← hn, Int.tdiv_eq_ediv (Int.natCast_nonneg _) (Int.natCast_nonneg _), hP]
    norm_cast
  have hDns : ∀ c ∈ (d.getPartDir filename).data, c ≠ '/' :=
    fun c hc => hns c (getPartDir_subset d filename c hc)
  have hDne : filename ≠ d.getPartDir filename := by
    intro h
    have hmem : '.' ∈ (d.getPartDir filename).data := by rw [← h]; exact hdot
    rw [getPartDir_data] at hmem
    simpa using List.mem_takeWhile_imp hmem
  obtain ⟨hdir1, hmk⟩ := osMkdir_partDir fs (d.getPartDir filename) hDns hdirnone
  obtain ⟨fs2, hrun, hin, hout, hother, _⟩ := runParts_planLoop d resource strURL filename
    (resource.length : Int) (P : Int) (Int.natCast_nonneg P) hns d.concurrency.toNat 0
    (osMkdir fs (d.getPartDir filename)) hdir1
    (fun j _ => by rw [hmk _ (getPartDir_ne_part d filename _).symm]; exact hfree j)
  have hplan : d.plan (resource.length : Int) =
      d.planLoop (resource.length : Int) (P : Int) d.concurrency.toNat ((0 : Nat) : Int)
        (((0 : Nat) : Int) * ((P : Int) + 1)) := by
    unfold plan
    rw [hp]
    simp
  refine ⟨fs2, fun j => rangeBytes resource ((j : Int) * ((P : Int) + 1))
      (if (j : Int) = d.concurrency - 1 then (resource.length : Int)
       else (j : Int) * ((P : Int) + 1) + (P : Int)), P + 1, ?_, ?_, ?_, ?_, ?_⟩
  · rw [hplan]
    exact hrun
  · intro j hj
    have hjn : ¬ (j : Int) = d.concurrency - 1 := by omega
    have h := hin j (Nat.zero_le j) (by omega)
    simp only [if_neg hjn] at h ⊢
    rw [if_pos (by omega)] at h
    exact ⟨h, rangeBytes_chunk resource j P⟩
  · have hcast : ((d.concurrency.toNat - 1 : Nat) : Int) = d.concurrency - 1 := by omega
    have hmul : (d.concurrency - 1) * ((P : Int) + 1)
        = (((d.concurrency.toNat - 1) * (P + 1) : Nat) : Int) := by
      rw [← hcast]
      push_cast
      ring
    have h := hin (d.concurrency.toNat - 1) (Nat.zero_le _) (by omega)
    simp only [hcast, if_true] at h ⊢
    by_cases hlast : (d.concurrency - 1) * ((P : Int) + 1) < (resource.length : Int)
    · left
      rw [if_pos hlast] at h
      refine ⟨h, ?_⟩
      rw [hmul]
      exact rangeBytes_tail resource _
    · right
      rw [if_neg hlast] at h
      refine ⟨h, ?_⟩
      rw [hmul] at hlast
      have := Int.not_lt.1 hlast
      exact_mod_cast this
  · intro j hj
    exact hout j (by omega)
  · rw [hother filename (fun j => (getPartFilename_ne_dest d filename _).symm),
      hmk filename hDne]
    exact hdest

end Downloader

namespace Downloader

/-- Round trip for resources of at least `concurrency` bytes: against the range server,
for a file name with a dot and without a slash, from a file system that holds neither the
destination nor the part directory nor any part file, `multiDownload` returns and leaves
the destination holding the resource byte for byte, with no part file and no part
directory left. -/
theorem multiDownload_round_trip (d : Downloader) (resource : Bytes)
    (strURL filename : String) (fs : FS)
    (hc : 1 ≤ d.concurrency) (hlen : d.concurrency ≤ (resource.length : Int))
    (hns : ∀ c ∈ filename.data, c ≠ '/') (hdot : '.' ∈ filename.data)
    (hdest : fsLookup fs filename = none)
    (hdirnone : fsLookup fs (d.getPartDir filename) = none)
    (hfree : ∀ j : Nat, fsLookup fs (d.getPartFilename filename (j : Int)) = none) :
    ∃ fs', d.multiDownload (rangeServer resource) strURL filename (resource.length : Int) fs
        = Outcome.returned none fs' ∧
      fsLookup fs' filename = some (Node.file resource) ∧
      (∀ j : Nat, fsLookup fs' (d.getPartFilename filename (j : Int)) = none) ∧
      (d.getPartDir filename ≠ "" → fsLookup fs' (d.getPartDir filename) = none) := by
  obtain ⟨fs2, parts, w, hrun, hmid, hlast, hout, hdest2⟩ :=
    runParts_plan_chunks d resource strURL filename fs hc hlen hns hdot hdest hdirnone hfree
  have hn1 : 1 ≤ d.concurrency.toNat := by omega
  have hsucc : d.concurrency.toNat = (d.concurrency.toNat - 1) + 1 := by omega
  have hfne : filename.data ≠ [] := fun h => by rw [h] at hdot; cases hdot
  have hopen : (osOpenFile fs2 filename).isSome = true := by
    simp [osOpenFile, hdest2, creatable_of_no_slash fs2 filename hfne hns]
  have hDne : filename ≠ d.getPartDir filename := by
    intro h
    have hmem : '.' ∈ (d.getPartDir filename).data := by rw [← h]; exact hdot
    rw [getPartDir_data] at hmem
    simpa using List.mem_takeWhile_imp hmem
  have hchunks : concatParts parts 0 (d.concurrency.toNat - 1)
      = resource.take ((d.concurrency.toNat - 1) * w) := by
    have := concatParts_chunks resource parts w (d.concurrency.toNat - 1)
      (fun j hj => (hmid j hj).2) (d.concurrency.toNat - 1) 0 (by omega)
    simpa using this
  have hmulti : d.multiDownload (rangeServer resource) strURL filename
      (resource.length : Int) fs
      = Outcome.returned none
          (osRemoveAll (d.merge filename fs2).2 (d.getPartDir filename)) := by
    simp only [multiDownload, if_neg (show ¬ d.concurrency = 0 by omega),
      if_neg (show ¬ d.concurrency < 0 by omega), hrun]
  refine ⟨_, hmulti, ?_, ?_, fun hne => osRemoveAll_lookup_same _ _ hne⟩
  · rw [osRemoveAll_lookup_other _ _ _ hDne (isUnder_of_no_slash _ _ hns)]
    rcases hlast with ⟨hfile, hcont⟩ | ⟨hmiss, hshort⟩
    · obtain ⟨_, _, hnew, _⟩ := merge_overwrites d filename fs2 parts
        (fun j hj => by
          by_cases hj1 : j < d.concurrency.toNat - 1
          · exact (hmid j hj1).1
          · have : j = d.concurrency.toNat - 1 := by omega
            subst this
            exact hfile)
        hopen
      have hcat := concatParts_succ_right parts (d.concurrency.toNat - 1) 0
      rw [← hsucc, Nat.zero_add] at hcat
      rw [hnew hdest2, hcat, hchunks, hcont, List.take_append_drop]
    · obtain ⟨_, ⟨old, hold, hcontent⟩, _⟩ := merge_stops_at_missing_part d filename fs2
        parts (d.concurrency.toNat - 1) (by omega) (fun j hj => (hmid j hj).1) hmiss hopen
      have hold' : old = [] := by
        rcases hold with h | ⟨_, h⟩
        · rw [hdest2] at h
          cases h
        · exact h
      rw [hcontent, hold', hchunks, List.take_of_length_le hshort]
      simp
  · intro j
    rcases osRemoveAll_lookup (d.merge filename fs2).2 (d.getPartDir filename)
      (d.getPartFilename filename (j : Int)) with h | h
    · exact h
    · rw [h]
      rcases hlast with ⟨hfile, _⟩ | ⟨hmiss, _⟩
      · obtain ⟨_, hrem, _, _, hframe⟩ := merge_overwrites d filename fs2 parts
          (fun j hj => by
            by_cases hj1 : j < d.concurrency.toNat - 1
            · exact (hmid j hj1).1
            · have : j = d.concurrency.toNat - 1 := by omega
              subst this
              exact hfile)
          hopen
        by_cases hj : j < d.concurrency.toNat
        · exact hrem j hj
        · rw [hframe _ (getPartFilename_ne_dest d filename _)
            (fun i hi => getPartFilename_nat_ne d filename (by omega))]
          exact hout j (by omega)
      · obtain ⟨_, _, hframe, hrem⟩ := merge_stops_at_missing_part d filename fs2
          parts (d.concurrency.toNat - 1) (by omega) (fun j hj => (hmid j hj).1) hmiss hopen
        by_cases hj : j < d.concurrency.toNat - 1
        · exact hrem j hj
        · rw [hframe _ (getPartFilename_ne_dest d filename _)
            (fun i hi => getPartFilename_nat_ne d filename (by omega))]
          by_cases hj2 : j = d.concurrency.toNat - 1
          · rw [hj2]
            exact hmiss
          · exact hout j (by omega)

/-- The round trip on a concrete run: ten bytes in three parts into `a.bin`. -/
theorem multiDownload_round_trip_example :
    ∃ fs', (NewDownloader 3).multiDownload (rangeServer [1, 2, 3, 4, 5, 6, 7, 8, 9, 10])
        "u" "a.bin" (([1, 2, 3, 4, 5, 6, 7, 8, 9, 10] : Bytes).length : Int) []
        = Outcome.returned none fs' ∧
      fsLookup fs' "a.bin" = some (Node.file [1, 2, 3, 4, 5, 6, 7, 8, 9, 10]) :=
  have h := multiDownload_round_trip (NewDownloader 3) [1, 2, 3, 4, 5, 6, 7, 8, 9, 10]
    "u" "a.bin" [] (by decide) (by decide) (by decide) (by decide) rfl rfl (fun _ => rfl)
  h.imp fun _ hfs => ⟨hfs.1, hfs.2.1⟩

end Downloader

namespace Downloader

/-- Resources shorter than `concurrency`: under the conditions of the round trip, every
part is skipped, `merge` stops at the missing part `0`, and `multiDownload` returns with an
empty destination, whatever the resource holds. -/
theorem multiDownload_short_resource (d : Downloader) (resource : Bytes)
    (strURL filename : String) (fs : FS)
    (hshort : (resource.length : Int) < d.concurrency)
    (hns : ∀ c ∈ filename.data, c ≠ '/') (hdot : '.' ∈ filename.data)
    (hdest : fsLookup fs filename = none)
    (hdirnone : fsLookup fs (d.getPartDir filename) = none)
    (hfree : ∀ j : Nat, fsLookup fs (d.getPartFilename filename (j : Int)) = none) :
    ∃ fs', d.multiDownload (rangeServer resource) strURL filename (resource.length : Int) fs
        = Outcome.returned none fs' ∧
      fsLookup fs' filename = some (Node.file []) := by
  have hc : 1 ≤ d.concurrency := by omega
  have hn : ((d.concurrency.toNat : Nat) : Int) = d.concurrency :=
    Int.toNat_of_nonneg (by omega)
  have hp : Int.tdiv (resource.length : Int) d.concurrency = ((0 : Nat) : Int) := by
    rw [Int.tdiv_eq_ediv (Int.natCast_nonneg _) (by omega),
      Int.ediv_eq_zero_of_lt (Int.natCast_nonneg _) hshort]
    rfl
  have hDns : ∀ c ∈ (d.getPartDir filename).data, c ≠ '/' :=
    fun c hc => hns c (getPartDir_subset d filename c hc)
  have hDne : filename ≠ d.getPartDir filename := by
    intro h
    have hmem : '.' ∈ (d.getPartDir filename).data := by rw [← h]; exact hdot
    rw [getPartDir_data] at hmem
    simpa using List.mem_takeWhile_imp hmem
  have hfne : filename.data ≠ [] := fun h => by rw [h] at hdot; cases hdot
  obtain ⟨hdir1, hmk⟩ := osMkdir_partDir fs (d.getPartDir filename) hDns hdirnone
  obtain ⟨fs2, hrun, hin, _, hother, _⟩ := runParts_planLoop d resource strURL filename
    (resource.length : Int) ((0 : Nat) : Int) (Int.natCast_nonneg 0) hns d.concurrency.toNat 0
    (osMkdir fs (d.getPartDir filename)) hdir1
    (fun j _ => by rw [hmk _ (getPartDir_ne_part d filename _).symm]; exact hfree j)
  have hplan : d.plan (resource.length : Int) =
      d.planLoop (resource.length : Int) ((0 : Nat) : Int) d.concurrency.toNat
        ((0 : Nat) : Int) (((0 : Nat) : Int) * (((0 : Nat) : Int) + 1)) := by
    unfold plan
    rw [hp]
    simp
  rw [← hplan] at hrun
  have hmiss : fsLookup fs2 (d.getPartFilename filename ((0 : Nat) : Int)) = none := by
    have h := hin 0 (Nat.le_refl 0) (by omega)
    rw [if_neg] at h
    · exact h
    · split <;> omega
  have hdest2 : fsLookup fs2 filename = none := by
    rw [hother filename (fun j => (getPartFilename_ne_dest d filename _).symm),
      hmk filename hDne]
    exact hdest
  have hopen : (osOpenFile fs2 filename).isSome = true := by
    simp [osOpenFile, hdest2, creatable_of_no_slash fs2 filename hfne hns]
  have hmulti : d.multiDownload (rangeServer resource) strURL filename
      (resource.length : Int) fs
      = Outcome.returned none
          (osRemoveAll (d.merge filename fs2).2 (d.getPartDir filename)) := by
    simp only [multiDownload, if_neg (show ¬ d.concurrency = 0 by omega),
      if_neg (show ¬ d.concurrency < 0 by omega), hrun]
  refine ⟨_, hmulti, ?_⟩
  rw [osRemoveAll_lookup_other _ _ _ hDne (isUnder_of_no_slash _ _ hns)]
  obtain ⟨_, ⟨old, hold, hcontent⟩, _⟩ := merge_stops_at_missing_part d filename fs2
    (fun _ => []) 0 (by omega) (fun j hj => absurd hj (Nat.not_lt_zero j)) hmiss hopen
  have hold' : old = [] := by
    rcases hold with h | ⟨_, h⟩
    · rw [hdest2] at h
      cases h
    · exact h
  rw [hcontent, hold']
  rfl

/-- The short resource on a concrete run: one byte in two parts into `a.bin`. -/
theorem multiDownload_short_resource_example :
    ∃ fs', (NewDownloader 2).multiDownload (rangeServer [7]) "u" "a.bin"
        (([7] : Bytes).length : Int) [] = Outcome.returned none fs' ∧
      fsLookup fs' "a.bin" = some (Node.file []) :=
  multiDownload_short_resource (NewDownloader 2) [7] "u" "a.bin" [] (by decide) (by decide)
    (by decide) rfl rfl (fun _ => rfl)

end Downloader
